import Mathlib

/-!
Verification development for the actAgents turn-based conversation state
engine.  The definitions below are a shallow embedding of the Python source:

* `core/services/state_management/chat_state_service.py` — the turn
  lifecycle manager (`TurnMetadata`, `add_assistant_message`,
  `add_tool_result`, `force_complete_turn`, `cleanup_active_turns`), the
  history repair pass (`_validate_and_repair_tool_calls`), the turn
  windowing pass (`_extract_turns_from_messages`) and the pure pipeline of
  `get_chat_history`;
* `core/services/state_management/storage_service/redis_storage.py` — the
  idempotent log appends (`add_chat_message`, `add_tool_call`) and the
  versioned state document (`set_chat_state`, with the service-level
  `update_chat_state`);
* `core/agents/common/base_agent.py` — the tool-call executor
  (`_execute_tool_calls_with_retry` / `_execute_tool_call`).

Wall-clock timestamps are abstracted to integer counters passed in
explicitly wherever the source calls `datetime.now()`; Redis I/O is
abstracted to the in-memory list the source reads and writes under its
locks.  Each definition's doc comment names the source function it embeds.
-/

namespace ActAgents

/-- One persisted conversational message, the dict built by
`ChatStateManagerService` (`start_turn`, `add_assistant_message`,
`add_tool_result`).  `tool_calls` holds the ids of the announced tool calls
(the `id` field of each entry of the source's `tool_calls` list);
`tool_call_id` is set on `role = "tool"` messages.  An absent dict key is
the default value. -/
structure Message where
  message_id : String
  turn_id : String := ""
  role : String
  content : String := ""
  tool_calls : List String := []
  tool_call_id : Option String := none
  timestamp : Int := 0
deriving DecidableEq, Repr

/-- The `TurnMetadata` pydantic model of `chat_state_service.py`, with
`created_at` / `completed_at` abstracted to integer clock readings. -/
structure TurnMetadata where
  turn_id : String
  user_message_id : String
  assistant_message_id : String := ""
  tool_call_ids : List String := []
  completed_tool_results : List String := []
  is_complete : Bool := false
  created_at : Int
  completed_at : Option Int := none
deriving DecidableEq, Repr

/-- The Python comparison `set(a) == set(b)` on two lists of ids:
extensional equality of their element sets. -/
def listSetEq (a b : List String) : Bool :=
  a.all (fun x => b.contains x) && b.all (fun x => a.contains x)

/-- Embeds `ChatStateManagerService.start_turn` on one chat: the turn
metadata registered in the in-memory index and the user message persisted
to storage.  (Id generation and the chat lock are outside the model; the
ids are arguments.) -/
def start_turn (turn_id user_message_id user_message : String) (now : Int) :
    TurnMetadata × Message :=
  ({ turn_id := turn_id, user_message_id := user_message_id,
     assistant_message_id := "", created_at := now },
   { message_id := user_message_id, turn_id := turn_id, role := "user",
     content := user_message, timestamp := now })

/-- Embeds `ChatStateManagerService.add_assistant_message` on a turn that
is present in the in-memory index: records the assistant message id; a
truthy `tool_calls` list overwrites `tool_call_ids` with the announced ids
and leaves the turn open, an empty one marks the turn complete.  Returns
the updated metadata and the assistant message persisted to storage. -/
def add_assistant_message (tm : TurnMetadata) (assistant_message_id content : String)
    (tool_calls : List String) (now : Int) : TurnMetadata × Message :=
  let tm1 := { tm with assistant_message_id := assistant_message_id }
  if tool_calls.isEmpty then
    ({ tm1 with is_complete := true, completed_at := some now },
     { message_id := assistant_message_id, turn_id := tm.turn_id,
       role := "assistant", content := content, timestamp := now })
  else
    ({ tm1 with tool_call_ids := tool_calls },
     { message_id := assistant_message_id, turn_id := tm.turn_id,
       role := "assistant", content := content, tool_calls := tool_calls,
       timestamp := now })

/-- Embeds `ChatStateManagerService.add_tool_result` on a turn that is
present in the in-memory index: the guard on the expected id set, the
idempotent extension of the completed set, the `set(completed) ==
set(expected)` completion check, and the returned boolean.  When the guard
passes the source also persists a fresh `role = "tool"` message to storage
(unconditionally, also on a re-delivery); that append does not touch the
turn metadata and is left to the storage-level embedding
`add_chat_message`. -/
def add_tool_result (tm : TurnMetadata) (tool_call_id : String) (now : Int) :
    TurnMetadata × Bool :=
  if tm.tool_call_ids.contains tool_call_id then
    let tm1 :=
      if tm.completed_tool_results.contains tool_call_id then tm
      else { tm with completed_tool_results := tm.completed_tool_results ++ [tool_call_id] }
    if listSetEq tm1.completed_tool_results tm1.tool_call_ids then
      ({ tm1 with is_complete := true, completed_at := some now }, true)
    else (tm1, false)
  else (tm, false)

/-- A sequence of `add_tool_result` calls (tool-call id, clock reading) on
one turn, recording the boolean each call returns. -/
def run_tool_results (tm : TurnMetadata) : List (String × Int) → TurnMetadata × List Bool
  | [] => (tm, [])
  | d :: rest =>
    let r := add_tool_result tm d.1 d.2
    let rr := run_tool_results r.1 rest
    (rr.1, r.2 :: rr.2)

/-- Embeds `ChatStateManagerService.force_complete_turn` on one chat's
in-memory turn index (an association list keyed by turn id).  `lockHeld`
says whether the calling task already holds this chat's `asyncio.Lock`;
that lock is not reentrant, so `async with` on a lock the same task already
holds never proceeds, which the embedding renders as `none`. -/
def force_complete_turn (lockHeld : Bool) (turns : List (String × TurnMetadata))
    (turn_id : String) (now : Int) : Option (List (String × TurnMetadata) × Bool) :=
  if lockHeld then none
  else if turns.any (fun p => p.1 == turn_id) then
    some (turns.map (fun p =>
      if p.1 == turn_id
      then (p.1, { p.2 with is_complete := true, completed_at := some now })
      else p), true)
  else some (turns, false)

/-- Embeds `ChatStateManagerService.cleanup_active_turns`: under the
chat's lock it collects the turns older than `max_age_minutes` and, for
each, awaits `force_complete_turn` — which re-acquires the same
non-reentrant lock — and then deletes the turn from the index.  The
source's `(now - created).total_seconds() / 60 > max_age_minutes` is
rendered in seconds as `60 * max_age_minutes < now - created_at`. -/
def cleanup_active_turns (lockHeld : Bool) (turns : List (String × TurnMetadata))
    (max_age_minutes : Int) (now : Int) : Option (List (String × TurnMetadata)) :=
  if lockHeld then none
  else
    let toRemove := (turns.filter
      (fun p => decide (60 * max_age_minutes < now - p.2.created_at))).map (fun p => p.1)
    toRemove.foldl
      (fun acc tid => acc.bind (fun ts =>
        (force_complete_turn true ts tid now).map
          (fun r => r.1.filter (fun p => p.1 != tid))))
      (some turns)

/-- The running `tool_call_id -> announcing assistant message` dict of
`_validate_and_repair_tool_calls`, embedded as an insertion-ordered
association list with Python dict semantics. -/
abbrev PendingMap := List (String × Message)

/-- Python `d[k] = v`: replace the value in place when the key is bound,
append the binding otherwise. -/
def pendingInsert (p : PendingMap) (k : String) (v : Message) : PendingMap :=
  if p.any (fun kv => kv.1 == k) then p.map (fun kv => if kv.1 == k then (k, v) else kv)
  else p ++ [(k, v)]

/-- Python `k in d`. -/
def pendingContains (p : PendingMap) (k : String) : Bool :=
  p.any (fun kv => kv.1 == k)

/-- Python `del d[k]`. -/
def pendingErase (p : PendingMap) (k : String) : PendingMap :=
  p.filter (fun kv => kv.1 != k)

/-- Python `d.values()` (membership tests against it compare messages
structurally, as `in dict.values()` does on dicts). -/
def pendingValues (p : PendingMap) : List Message :=
  p.map (fun kv => kv.2)

/-- One iteration of the message walk of
`ChatStateManagerService._validate_and_repair_tool_calls`; the state is
`(repaired_messages, pending_tool_calls)`.  An assistant message with a
truthy `tool_calls` list is kept and its ids become pending; a `tool`
message is kept only when its truthy `tool_call_id` is pending (resolving
it), and is dropped as orphaned otherwise; any other message, when it is a
`user` message arriving with tool calls still pending, first removes from
the accepted output every message equal to a pending announcing assistant
message and clears the pending dict, and is then kept. -/
def validateStep (st : List Message × PendingMap) (msg : Message) :
    List Message × PendingMap :=
  if msg.role == "assistant" && !msg.tool_calls.isEmpty then
    (st.1 ++ [msg], msg.tool_calls.foldl (fun p tcid => pendingInsert p tcid msg) st.2)
  else if msg.role == "tool" then
    match msg.tool_call_id with
    | some tcid =>
      if tcid != "" && pendingContains st.2 tcid then
        (st.1 ++ [msg], pendingErase st.2 tcid)
      else (st.1, st.2)
    | none => (st.1, st.2)
  else
    if !st.2.isEmpty && msg.role == "user" then
      ((st.1.filter (fun m => !(pendingValues st.2).contains m)) ++ [msg], [])
    else (st.1 ++ [msg], st.2)

/-- Embeds `ChatStateManagerService._validate_and_repair_tool_calls`: the
message walk followed by the final cleanup that removes the announcing
assistant messages of the tool calls still pending at the end of the
list. -/
def validate_and_repair_tool_calls (messages : List Message) : List Message :=
  let st := messages.foldl validateStep ([], [])
  if !st.2.isEmpty then st.1.filter (fun m => !(pendingValues st.2).contains m)
  else st.1

/-- One iteration of `ChatStateManagerService._extract_turns_from_messages`;
the state is `(turns, current_turn)`.  A `user` message closes the current
turn (when non-empty) and starts a new one; an `assistant` or `tool`
message joins the current turn when one is open and is otherwise dropped as
orphaned; a message of any other role is ignored. -/
def extractStep (st : List (List Message) × List Message) (msg : Message) :
    List (List Message) × List Message :=
  if msg.role == "user" then
    ((if !st.2.isEmpty then st.1 ++ [st.2] else st.1), [msg])
  else if msg.role == "assistant" || msg.role == "tool" then
    (st.1, if !st.2.isEmpty then st.2 ++ [msg] else st.2)
  else st

/-- The grouped turn list `_extract_turns_from_messages` builds before
windowing (the walk plus the final `if current_turn: turns.append`). -/
def turnsOf (messages : List Message) : List (List Message) :=
  let st := messages.foldl extractStep ([], [])
  if !st.2.isEmpty then st.1 ++ [st.2] else st.1

/-- Embeds `ChatStateManagerService._extract_turns_from_messages`.
`k_turns` is the optional window size; the Python slice `turns[-k:]` for
`0 < k` keeps the last `min k (length turns)` turns, i.e. drops
`length - toNat k`.  The flattening `for turn in turns:
result_messages.extend(turn)` is the fold of list append. -/
def extract_turns_from_messages (messages : List Message) (k_turns : Option Int) :
    List Message :=
  if messages.isEmpty then []
  else
    let turns := turnsOf messages
    let turns := match k_turns with
      | some k => if 0 < k then turns.drop (turns.length - k.toNat) else turns
      | none => turns
    turns.foldl (fun acc t => acc ++ t) []

/-- The pure history pipeline of `ChatStateManagerService.get_chat_history`
after the storage fetch and the timestamp sort: the
`include_tool_calls` branch (repair pass versus the tool-stripping
filter), the optional turn extraction, and the final `history[-limit:]`
slice applied when `limit` is truthy and exceeded. -/
def get_chat_history (sorted_history : List Message) (include_tool_calls : Bool)
    (k_turns : Option Int) (limit : Option Nat) : List Message :=
  if sorted_history.isEmpty then []
  else
    let repaired :=
      if include_tool_calls then validate_and_repair_tool_calls sorted_history
      else sorted_history.filter (fun m => m.role != "tool" && m.tool_calls.isEmpty)
    let finalHistory := match k_turns with
      | some k => extract_turns_from_messages repaired (some k)
      | none => repaired
    match limit with
    | some l =>
      if 0 < l && decide (l < finalHistory.length)
      then finalHistory.drop (finalHistory.length - l)
      else finalHistory
    | none => finalHistory

/-- A chat-log entry as `RedisStorage.add_chat_message` stores it: the
message id (possibly absent before the write) and the rest of the dict,
collapsed into an opaque payload. -/
structure StoredMessage where
  message_id : Option String
  payload : String := ""
deriving DecidableEq, Repr

/-- Embeds `RedisStorage.add_chat_message` on one chat's history list,
which the source reads and writes under the chat's distributed write lock:
a missing `message_id` is generated from the incremented message counter,
the whole log is scanned for an entry with the same id, and the write is
skipped when one exists; otherwise the message is appended. -/
def add_chat_message (chat_id : String) (counter : Nat) (log : List StoredMessage)
    (msg : StoredMessage) : Nat × List StoredMessage :=
  match msg.message_id with
  | none =>
    let c := counter + 1
    let m : StoredMessage := { msg with message_id := some (chat_id ++ ":msg:" ++ toString c) }
    if log.any (fun x => x.message_id == m.message_id) then (c, log)
    else (c, log ++ [m])
  | some _ =>
    if log.any (fun x => x.message_id == msg.message_id) then (counter, log)
    else (counter, log ++ [msg])

/-- A tool-call audit entry as `RedisStorage.add_tool_call` stores it. -/
structure ToolCallEntry where
  tool_call_id : Option String
  payload : String := ""
deriving DecidableEq, Repr

/-- Embeds `RedisStorage.add_tool_call` on one chat's tool history list:
the duplicate scan runs only when the entry carries a truthy (present and
non-empty) `tool_call_id`; an entry without one is always appended. -/
def add_tool_call (log : List ToolCallEntry) (tc : ToolCallEntry) : List ToolCallEntry :=
  match tc.tool_call_id with
  | some tcid =>
    if tcid != "" then
      if log.any (fun x => x.tool_call_id == some tcid) then log
      else log ++ [tc]
    else log ++ [tc]
  | none => log ++ [tc]

/-- A JSON value of the chat-state document (the integers, strings and
nested objects the claims exercise). -/
inductive JVal where
  | jint : Int → JVal
  | jstr : String → JVal
  | jdict : List (String × JVal) → JVal

/-- A JSON object: an insertion-ordered association list, as a Python
dict. -/
abbrev JObj := List (String × JVal)

/-- Python `d.get(k)`: the value bound to `k`, looked up key by key. -/
def jget : JObj → String → Option JVal
  | [], _ => none
  | p :: rest, k => if p.1 == k then some p.2 else jget rest k

/-- Python `k in d`. -/
def jhasKey (o : JObj) (k : String) : Bool :=
  o.any (fun p => p.1 == k)

/-- Python `d[k] = v` (and the dict-literal override `{**d, k: v}`):
replace in place when bound, append otherwise. -/
def jset (o : JObj) (k : String) (v : JVal) : JObj :=
  if jhasKey o k then o.map (fun p => if p.1 == k then (k, v) else p)
  else o ++ [(k, v)]

/-- Python `d.update(patch)`. -/
def dictUpdate (o : JObj) (patch : JObj) : JObj :=
  patch.foldl (fun acc p => jset acc p.1 p.2) o

/-- The abstract rendering of `datetime.now(...).isoformat()` at clock
reading `n`. -/
def isoTime (n : Nat) : String :=
  "ts-" ++ toString n

/-- Embeds `RedisStorage.set_chat_state`: the stored document is the given
state with `last_updated` and `version := state.get("version", 0) + 1`
overridden.  A stored non-integer version makes the Python `+` raise (the
surrounding handler re-raises), rendered as `none`. -/
def set_chat_state (state : JObj) (now : Nat) : Option JObj :=
  match jget state "version" with
  | none =>
    some (jset (jset state "last_updated" (JVal.jstr (isoTime now))) "version" (JVal.jint 1))
  | some (JVal.jint n) =>
    some (jset (jset state "last_updated" (JVal.jstr (isoTime now))) "version" (JVal.jint (n + 1)))
  | some _ => none

/-- The default document `ChatState.create_default(chat_id).dict()` (it
carries no `version` key). -/
def default_chat_state (chat_id : String) (now : Nat) : JObj :=
  [("chat_id", JVal.jstr chat_id), ("created_at", JVal.jstr (isoTime now)),
   ("updated_at", JVal.jstr (isoTime now)), ("user_preferences", JVal.jdict []),
   ("conversation_context", JVal.jdict [])]

/-- Embeds `ChatStateManagerService.get_chat_state` against the stored
document: an absent document triggers lazy creation (`set_chat_state` of
the default) and the pre-metadata default is returned.  The result is the
state handed to the caller and the list of documents written by
`set_chat_state` during the call.  The `none` branch of the inner match is
unreachable: the default document has no `version` key. -/
def get_chat_state (stored : Option JObj) (chat_id : String) (now : Nat) :
    JObj × List JObj :=
  match stored with
  | some st => (st, [])
  | none =>
    match set_chat_state (default_chat_state chat_id now) now with
    | some w => (default_chat_state chat_id now, [w])
    | none => (default_chat_state chat_id now, [])

/-- Embeds `ChatStateManagerService.update_chat_state`: read (with lazy
creation), merge the arbitrary patch, stamp `updated_at`, and write through
`set_chat_state`.  Returns the documents written by `set_chat_state`
during the call, in order — the document stored after the call is the last
of them — or `none` when `set_chat_state` raises. -/
def update_chat_state (stored : Option JObj) (patch : JObj) (chat_id : String)
    (now : Nat) : Option (List JObj) :=
  let g := get_chat_state stored chat_id now
  let merged := jset (dictUpdate g.1 patch) "updated_at" (JVal.jstr (isoTime now))
  match set_chat_state merged now with
  | some w => some (g.2 ++ [w])
  | none => none

/-- The `version` entry of a stored document, when it is an integer. -/
def versionOf (o : JObj) : Option Int :=
  match jget o "version" with
  | some (JVal.jint n) => some n
  | _ => none

/-- The result dict `BaseAgent._execute_tool_call` (and the synthetic
failure branches of the retry wrapper) hand back to the conversation
loop. -/
structure ToolResultMessage where
  tool_call_id : String
  role : String
  name : String
  content : String
deriving DecidableEq, Repr

/-- How one attempted execution of a tool call behaves, abstracting the
tool function and the argument payload for that attempt. -/
inductive ToolBehavior where
  /-- The tool returns a result whose serialized content is `result`. -/
  | succeeds (result : String)
  /-- `json.loads(tool_call.function.arguments)` raises with message `err`. -/
  | argsUnparsable (err : String)
  /-- The function name is not registered in `available_functions`. -/
  | notAvailable
  /-- The tool itself raises with message `err`. -/
  | raises (err : String)
  /-- The call never finishes inside the `asyncio.wait_for` timeout. -/
  | hangs
  /-- An exception with message `err` is raised before the try block of
  `_execute_tool_call` (for instance reading `tool_call.function.name` on a
  malformed tool-call object). -/
  | preRaises (err : String)
deriving DecidableEq, Repr

/-- What awaiting one `asyncio.wait_for(self._execute_tool_call(...))`
yields inside the retry wrapper: a returned result dict, an
`asyncio.TimeoutError`, or an exception that escaped
`_execute_tool_call`. -/
inductive AttemptResult where
  | result (msg : ToolResultMessage)
  | timedOut
  | raised (err : String)
deriving DecidableEq, Repr

/-- An apostrophe (U+0027), for the source's quoted tool name in the error
content. -/
def sq : String := String.singleton (Char.ofNat 39)

/-- The source's `f"Error executing tool '{function_name}': {str(e)}"`. -/
def execErrorContent (function_name err : String) : String :=
  "Error executing tool " ++ sq ++ function_name ++ sq ++ ": " ++ err

/-- Embeds `BaseAgent._execute_tool_call` for one attempt with the given
behavior.  Every exception raised inside its try block — argument parsing,
the unknown-function `ToolCallException`, the tool itself — is caught by
the `except Exception` clause of the same function and converted to a
returned `role = "tool"` message with a human-readable error content, so
it never reaches the retry wrapper; only a timeout, or an exception thrown
before the try block, escapes. -/
def execute_tool_call (tool_call_id function_name : String) (b : ToolBehavior) :
    AttemptResult :=
  match b with
  | .succeeds r =>
    .result { tool_call_id := tool_call_id, role := "tool", name := function_name,
              content := r }
  | .argsUnparsable e =>
    .result { tool_call_id := tool_call_id, role := "tool", name := function_name,
              content := execErrorContent function_name e }
  | .notAvailable =>
    .result { tool_call_id := tool_call_id, role := "tool", name := function_name,
              content := execErrorContent function_name
                ("Function " ++ function_name ++ " not available") }
  | .raises e =>
    .result { tool_call_id := tool_call_id, role := "tool", name := function_name,
              content := execErrorContent function_name e }
  | .hangs => .timedOut
  | .preRaises e => .raised e

/-- The loop body of `execute_single_tool_call` inside
`BaseAgent._execute_tool_calls_with_retry`: `attempt` is the 0-based index
of `for attempt in range(retry_attempts)` and `remaining` the number of
iterations left (so `attempt < retry_attempts - 1` is `0 < remaining - 1`).
A returned result dict — success or converted error alike — ends the loop;
a timeout or an escaped exception is retried while attempts remain, and on
the last attempt produces the synthetic timeout / exhausted-retries
message.  Returns the result message and the number of attempts executed;
`none` is the fall-through with no attempt (`retry_attempts = 0`). -/
def retryLoop (tool_call_id function_name : String) (timeout_s retry_attempts : Nat)
    (behavior : Nat → ToolBehavior) : Nat → Nat → Option (ToolResultMessage × Nat)
  | _, 0 => none
  | attempt, remaining + 1 =>
    match execute_tool_call tool_call_id function_name (behavior attempt) with
    | .result m => some (m, attempt + 1)
    | .timedOut =>
      if 0 < remaining then
        retryLoop tool_call_id function_name timeout_s retry_attempts behavior
          (attempt + 1) remaining
      else
        some ({ tool_call_id := tool_call_id, role := "tool", name := function_name,
                content := "Tool call timed out after " ++ toString timeout_s ++ "s" },
              attempt + 1)
    | .raised e =>
      if 0 < remaining then
        retryLoop tool_call_id function_name timeout_s retry_attempts behavior
          (attempt + 1) remaining
      else
        some ({ tool_call_id := tool_call_id, role := "tool", name := function_name,
                content := "Tool call failed after " ++ toString retry_attempts
                  ++ " attempts: " ++ e },
              attempt + 1)

/-- Embeds `execute_single_tool_call` for one tool call with a
per-attempt behavior oracle: the retry loop started at attempt 0. -/
def execute_single_tool_call (tool_call_id function_name : String)
    (timeout_s retry_attempts : Nat) (behavior : Nat → ToolBehavior) :
    Option (ToolResultMessage × Nat) :=
  retryLoop tool_call_id function_name timeout_s retry_attempts behavior 0 retry_attempts

/-- All messages held by an `extractStep` state: the finished turns
followed by the current turn. -/
def stateMessages (st : List (List Message) × List Message) : List Message :=
  st.1.flatten ++ st.2

/-- Every message's role is one of the three roles the engine persists. -/
def rolesValid (messages : List Message) : Prop :=
  ∀ m ∈ messages, m.role = "user" ∨ m.role = "assistant" ∨ m.role = "tool"

/-- A well-formed turn group: a `user` message followed by
`assistant`/`tool` messages only. -/
def turnWellFormed (t : List Message) : Prop :=
  ∃ u rest, t = u :: rest ∧ u.role = "user" ∧
    ∀ m ∈ rest, m.role = "assistant" ∨ m.role = "tool"

/-- One user/assistant/tool turn of the concrete example history: user
message `u i`, assistant announcement `a i` of tool call `c i`, tool
result `r i`. -/
def exampleTurn (i : Nat) : List Message :=
  [{ message_id := "u" ++ toString i, role := "user", content := "q" ++ toString i },
   { message_id := "a" ++ toString i, role := "assistant", tool_calls := ["c" ++ toString i] },
   { message_id := "r" ++ toString i, role := "tool", tool_call_id := some ("c" ++ toString i) }]

/-- A concrete validated history of 5 complete turns. -/
def exampleFiveTurnHistory : List Message :=
  exampleTurn 1 ++ exampleTurn 2 ++ exampleTurn 3 ++ exampleTurn 4 ++ exampleTurn 5

/-- Claim C1, counterexample.  Turn with expected tool-call id set
`{"a"}`: the first delivery of `"a"` completes the turn and returns true,
and the second, re-delivering call returns true again — `add_tool_result`
reports the turn as just-completed a second time, contrary to the claim
that completion is reported exactly once and that re-delivery is a no-op
(the re-delivering call also refreshes `completed_at` from 1 to 2). -/
theorem add_tool_result_redelivery_reports_complete_again :
    (run_tool_results { turn_id := "t1", user_message_id := "u1", created_at := 0,
                        tool_call_ids := ["a"] } [("a", 1), ("a", 2)]).2 = [true, true]
    ∧ (run_tool_results { turn_id := "t1", user_message_id := "u1", created_at := 0,
                          tool_call_ids := ["a"] } [("a", 1), ("a", 2)]).1.completed_at = some 2 := by
  decide

/-- Claim C2.  A history ending in an assistant message announcing tool
calls `c1` and `c2` with only `c1` resolved validates to the lone partial
tool result, not to the empty list: the final cleanup of
`_validate_and_repair_tool_calls` removes only messages equal to a pending
announcing assistant message, so the already-accepted partial tool result
is kept (orphaned) rather than dropped with it. -/
theorem validate_keeps_partial_result_of_dropped_assistant :
    validate_and_repair_tool_calls
      [{ message_id := "a1", role := "assistant", tool_calls := ["c1", "c2"] },
       { message_id := "r1", role := "tool", tool_call_id := some "c1" }] =
      [{ message_id := "r1", role := "tool", tool_call_id := some "c1" }] := by
  decide

/-- Claim C6.  The pairing-validation pass is not idempotent: on the
two-message history of an assistant announcing `c1, c2` with only `c1`
resolved, the first application keeps the orphaned partial tool result and
the second application drops it, so applying the pass to its own output
does not return that output unchanged. -/
theorem validate_and_repair_not_idempotent :
    validate_and_repair_tool_calls (validate_and_repair_tool_calls
      [{ message_id := "a1", role := "assistant", tool_calls := ["c1", "c2"] },
       { message_id := "r1", role := "tool", tool_call_id := some "c1" }]) = []
    ∧ validate_and_repair_tool_calls
      [{ message_id := "a1", role := "assistant", tool_calls := ["c1", "c2"] },
       { message_id := "r1", role := "tool", tool_call_id := some "c1" }] ≠ [] := by
  decide

/-- Claim C4.  With one turn older than `max_age` (61 minutes old against
a 60-minute threshold) in the in-memory index, `cleanup_active_turns`
never returns: it calls `force_complete_turn` while holding the chat's
non-reentrant `asyncio.Lock`, and that call blocks forever re-acquiring
the same lock.  With no turn over the threshold the sweep terminates and
leaves the index unchanged. -/
theorem cleanup_active_turns_deadlocks_on_old_turn :
    cleanup_active_turns false
      [("t1", { turn_id := "t1", user_message_id := "u1", created_at := 0 })] 60 3660 = none
    ∧ cleanup_active_turns false
      [("t1", { turn_id := "t1", user_message_id := "u1", created_at := 0 })] 60 3600 =
      some [("t1", { turn_id := "t1", user_message_id := "u1", created_at := 0 })] := by
  decide

/-- Claim C5.  The invariant `completed_tool_results ⊆ tool_call_ids`
fails: starting a turn, announcing tool calls `call_1, call_2`, delivering
the result of `call_1`, and then calling `add_assistant_message` again on
the same turn with tool-call list `[call_3]` leaves
`completed_tool_results = [call_1]`, which is not a subset of the new
`tool_call_ids = [call_3]` (the second call overwrites the expected set
without clearing the completed set). -/
theorem completed_subset_invariant_violated :
    (add_assistant_message
      (add_tool_result
        (add_assistant_message (start_turn "t1" "u1" "hi" 0).1 "a1" "" ["call_1", "call_2"] 1).1
        "call_1" 2).1
      "a2" "" ["call_3"] 3).1.completed_tool_results = ["call_1"]
    ∧ (add_assistant_message
      (add_tool_result
        (add_assistant_message (start_turn "t1" "u1" "hi" 0).1 "a1" "" ["call_1", "call_2"] 1).1
        "call_1" 2).1
      "a2" "" ["call_3"] 3).1.tool_call_ids = ["call_3"]
    ∧ ¬ (∀ x ∈ (add_assistant_message
      (add_tool_result
        (add_assistant_message (start_turn "t1" "u1" "hi" 0).1 "a1" "" ["call_1", "call_2"] 1).1
        "call_1" 2).1
      "a2" "" ["call_3"] 3).1.completed_tool_results,
        x ∈ (add_assistant_message
          (add_tool_result
            (add_assistant_message (start_turn "t1" "u1" "hi" 0).1 "a1" "" ["call_1", "call_2"] 1).1
            "call_1" 2).1
          "a2" "" ["call_3"] 3).1.tool_call_ids) := by
  decide

/-- Claim C3, counterexample.  Timeouts and exceptions raised during
execution are not retried identically: a tool that raises on every attempt
is executed once (its exception is caught inside `_execute_tool_call` and
converted to an error-content result message on the first attempt), while
a tool that hangs on every attempt is executed the full 3 times before the
synthetic timeout message. -/
theorem tool_exceptions_not_retried_timeouts_are :
    execute_single_tool_call "c1" "faq" 30 3 (fun _ => ToolBehavior.raises "boom") =
      some ({ tool_call_id := "c1", role := "tool", name := "faq",
              content := execErrorContent "faq" "boom" }, 1)
    ∧ execute_single_tool_call "c1" "faq" 30 3 (fun _ => ToolBehavior.hangs) =
      some ({ tool_call_id := "c1", role := "tool", name := "faq",
              content := "Tool call timed out after 30s" }, 3) := by
  constructor <;> rfl

/-- Claim C9, counterexample.  The stored version counter is not strictly
increasing over `update_chat_state` calls with arbitrary patches: the
first update on an absent chat writes version 1 twice (lazy creation
stores version 1, then the update's own write stores version 1 again,
because the state handed back by lazy creation is the pre-metadata default
without a `version` key); and a patch binding `"version"` to -10 over a
stored version 5 makes the next write store version -9 < 5. -/
theorem chat_state_version_not_monotonic :
    (update_chat_state none [] "c" 0).map (fun ws => ws.map versionOf) =
      some [some 1, some 1]
    ∧ (update_chat_state (some [("version", JVal.jint 5)])
        [("version", JVal.jint (-10))] "c" 1).map (fun ws => ws.map versionOf) =
      some [some (-9)] := by
  constructor <;> rfl

/-- Claim C7.  Appending a message (or tool-call audit entry) whose id
already exists in the chat's log is a no-op, and in particular a second
call with the same entry leaves the stored log — length and contents —
and the message counter unchanged.  For `add_tool_call` the id must be
truthy (present and non-empty): that is the source's own guard for running
the duplicate scan at all. -/
theorem add_chat_message_add_tool_call_idempotent
    (chat_id : String) (counter : Nat) (log : List StoredMessage) (msg : StoredMessage)
    (mid : String) (hm : msg.message_id = some mid)
    (tlog : List ToolCallEntry) (tc : ToolCallEntry) (tid : String)
    (ht : tc.tool_call_id = some tid) (hne : tid ≠ "") :
    (log.any (fun x => x.message_id == msg.message_id) = true →
      add_chat_message chat_id counter log msg = (counter, log))
    ∧ add_chat_message chat_id (add_chat_message chat_id counter log msg).1
        (add_chat_message chat_id counter log msg).2 msg =
        add_chat_message chat_id counter log msg
    ∧ (tlog.any (fun x => x.tool_call_id == tc.tool_call_id) = true →
        add_tool_call tlog tc = tlog)
    ∧ add_tool_call (add_tool_call tlog tc) tc = add_tool_call tlog tc := by
  obtain ⟨omid, pay⟩ := msg
  obtain ⟨otid, tpay⟩ := tc
  simp only at hm ht
  subst hm ht
  have hmm : ∀ c l, add_chat_message chat_id c l ⟨some mid, pay⟩ =
      if l.any (fun x => x.message_id == some mid) then (c, l) else (c, l ++ [⟨some mid, pay⟩]) := by
    intro c l
    simp [add_chat_message]
  have htt : ∀ l, add_tool_call l ⟨some tid, tpay⟩ =
      if l.any (fun x => x.tool_call_id == some tid) then l else l ++ [⟨some tid, tpay⟩] := by
    intro l
    simp [add_tool_call, hne]
  refine ⟨?_, ?_, ?_, ?_⟩
  · intro h
    simp [hmm, h]
  · by_cases h : log.any (fun x => x.message_id == some mid)
    · simp [hmm, h]
    · simp only [hmm, h, if_false]
      have : (log ++ [(⟨some mid, pay⟩ : StoredMessage)]).any
          (fun x => x.message_id == some mid) = true := by
        simp
      simp [this]
  · intro h
    simp [htt, h]
  · by_cases h : tlog.any (fun x => x.tool_call_id == some tid)
    · simp [htt, h]
    · simp only [htt, h, if_false]
      have : (tlog ++ [(⟨some tid, tpay⟩ : ToolCallEntry)]).any
          (fun x => x.tool_call_id == some tid) = true := by
        simp
      simp [this]

/-- Claim C7, witness: a concrete message and tool-call entry, appended
twice into initially empty logs. -/
theorem idempotent_append_witness :
    ((⟨some "m1", "hello"⟩ : StoredMessage).message_id = some "m1")
    ∧ ((⟨some "tc1", "faq"⟩ : ToolCallEntry).tool_call_id = some "tc1")
    ∧ ("tc1" : String) ≠ ""
    ∧ (add_chat_message "chat" 0
        (add_chat_message "chat" 0 [] ⟨some "m1", "hello"⟩).2 ⟨some "m1", "hello"⟩).2 =
        [⟨some "m1", "hello"⟩]
    ∧ add_tool_call (add_tool_call [] ⟨some "tc1", "faq"⟩) ⟨some "tc1", "faq"⟩ =
        [⟨some "tc1", "faq"⟩] := by
  have h := add_chat_message_add_tool_call_idempotent "chat" 0 [] ⟨some "m1", "hello"⟩
    "m1" (by decide) [] ⟨some "tc1", "faq"⟩ "tc1" (by decide) (by decide)
  refine ⟨by decide, by decide, by decide, ?_, ?_⟩
  · have h2 := h.2.1
    exact congrArg Prod.snd h2 |>.trans (by decide)
  · exact h.2.2.2.trans (by decide)

/-- `List.contains` on id lists is membership. -/
theorem contains_iff_mem (l : List String) (x : String) : l.contains x = true ↔ x ∈ l := by
  simp

/-- `listSetEq` is extensional equality of the two element sets. -/
theorem listSetEq_iff (a b : List String) :
    listSetEq a b = true ↔ ((∀ x ∈ a, x ∈ b) ∧ ∀ x ∈ b, x ∈ a) := by
  simp [listSetEq]

/-- `add_tool_result` never changes the expected id set. -/
theorem add_tool_result_tool_call_ids (tm : TurnMetadata) (tcid : String) (now : Int) :
    (add_tool_result tm tcid now).1.tool_call_ids = tm.tool_call_ids := by
  by_cases h1 : tcid ∈ tm.tool_call_ids
  · by_cases h2 : tcid ∈ tm.completed_tool_results
    · by_cases h3 : listSetEq tm.completed_tool_results tm.tool_call_ids <;>
        simp [add_tool_result, h1, h2, h3]
    · by_cases h3 : listSetEq (tm.completed_tool_results ++ [tcid]) tm.tool_call_ids <;>
        simp [add_tool_result, h1, h2, h3]
  · simp [add_tool_result, h1]

/-- A sequence of `add_tool_result` calls never changes the expected id
set. -/
theorem run_tool_results_tool_call_ids (deliveries : List (String × Int)) (tm : TurnMetadata) :
    (run_tool_results tm deliveries).1.tool_call_ids = tm.tool_call_ids := by
  induction deliveries generalizing tm with
  | nil => rfl
  | cons d rest ih =>
    simp only [run_tool_results]
    rw [ih, add_tool_result_tool_call_ids]

/-- `add_tool_result` never unsets the completion flag. -/
theorem add_tool_result_monotone (tm : TurnMetadata) (tcid : String) (now : Int)
    (h : tm.is_complete = true) : (add_tool_result tm tcid now).1.is_complete = true := by
  by_cases h1 : tcid ∈ tm.tool_call_ids
  · by_cases h2 : tcid ∈ tm.completed_tool_results
    · by_cases h3 : listSetEq tm.completed_tool_results tm.tool_call_ids <;>
        simp [add_tool_result, h1, h2, h3, h]
    · by_cases h3 : listSetEq (tm.completed_tool_results ++ [tcid]) tm.tool_call_ids <;>
        simp [add_tool_result, h1, h2, h3, h]
  · simp [add_tool_result, h1, h]

/-- A sequence of `add_tool_result` calls never unsets the completion
flag. -/
theorem run_tool_results_monotone (deliveries : List (String × Int)) (tm : TurnMetadata)
    (h : tm.is_complete = true) : (run_tool_results tm deliveries).1.is_complete = true := by
  induction deliveries generalizing tm with
  | nil => exact h
  | cons d rest ih =>
    simp only [run_tool_results]
    exact ih _ (add_tool_result_monotone tm d.1 d.2 h)

/-- `add_tool_result` with an unexpected id changes nothing and returns
false. -/
theorem add_tool_result_not_expected (tm : TurnMetadata) (tcid : String) (now : Int)
    (h : tcid ∉ tm.tool_call_ids) : add_tool_result tm tcid now = (tm, false) := by
  simp [add_tool_result, h]

/-- The completed set after `add_tool_result`: the delivered id is appended
exactly when it is expected and new. -/
theorem add_tool_result_completed_eq (tm : TurnMetadata) (tcid : String) (now : Int) :
    (add_tool_result tm tcid now).1.completed_tool_results =
      if tcid ∈ tm.tool_call_ids ∧ tcid ∉ tm.completed_tool_results
      then tm.completed_tool_results ++ [tcid]
      else tm.completed_tool_results := by
  by_cases h1 : tcid ∈ tm.tool_call_ids
  · by_cases h2 : tcid ∈ tm.completed_tool_results
    · by_cases h3 : listSetEq tm.completed_tool_results tm.tool_call_ids <;>
        simp [add_tool_result, h1, h2, h3]
    · by_cases h3 : listSetEq (tm.completed_tool_results ++ [tcid]) tm.tool_call_ids <;>
        simp [add_tool_result, h1, h2, h3]
  · simp [add_tool_result, h1]

/-- The completion flag after `add_tool_result`: set exactly when it was
set already or the (possibly just extended) completed set now equals the
expected set and the delivered id was expected. -/
theorem add_tool_result_is_complete_eq (tm : TurnMetadata) (tcid : String) (now : Int) :
    (add_tool_result tm tcid now).1.is_complete =
      (tm.is_complete ||
        (decide (tcid ∈ tm.tool_call_ids) &&
          listSetEq (add_tool_result tm tcid now).1.completed_tool_results
            tm.tool_call_ids)) := by
  by_cases h1 : tcid ∈ tm.tool_call_ids
  · by_cases h2 : tcid ∈ tm.completed_tool_results
    · by_cases h3 : listSetEq tm.completed_tool_results tm.tool_call_ids <;>
        simp [add_tool_result, h1, h2, h3]
    · by_cases h3 : listSetEq (tm.completed_tool_results ++ [tcid]) tm.tool_call_ids <;>
        simp [add_tool_result, h1, h2, h3]
  · simp [add_tool_result, h1]

/-- The boolean `add_tool_result` returns: true exactly when the delivered
id is expected and the completed set after the call equals the expected
set — with no memory of whether this call was the one that completed the
turn. -/
theorem add_tool_result_snd_eq (tm : TurnMetadata) (tcid : String) (now : Int) :
    (add_tool_result tm tcid now).2 =
      (decide (tcid ∈ tm.tool_call_ids) &&
        listSetEq (add_tool_result tm tcid now).1.completed_tool_results
          tm.tool_call_ids) := by
  by_cases h1 : tcid ∈ tm.tool_call_ids
  · by_cases h2 : tcid ∈ tm.completed_tool_results
    · by_cases h3 : listSetEq tm.completed_tool_results tm.tool_call_ids <;>
        simp [add_tool_result, h1, h2, h3]
    · by_cases h3 : listSetEq (tm.completed_tool_results ++ [tcid]) tm.tool_call_ids <;>
        simp [add_tool_result, h1, h2, h3]
  · simp [add_tool_result, h1]

/-- What `add_tool_result` does to the membership of the completed set:
the expected delivered id is added, nothing else changes. -/
theorem mem_add_tool_result_completed (tm : TurnMetadata) (tcid : String) (now : Int)
    (x : String) :
    x ∈ (add_tool_result tm tcid now).1.completed_tool_results ↔
      x ∈ tm.completed_tool_results ∨ (x = tcid ∧ tcid ∈ tm.tool_call_ids) := by
  rw [add_tool_result_completed_eq]
  by_cases h1 : tcid ∈ tm.tool_call_ids
  · by_cases h2 : tcid ∈ tm.completed_tool_results
    · rw [if_neg (by tauto)]
      constructor
      · exact Or.inl
      · rintro (hx | ⟨rfl, _⟩)
        · exact hx
        · exact h2
    · rw [if_pos ⟨h1, h2⟩]
      simp only [List.mem_append, List.mem_singleton]
      constructor
      · rintro (hx | rfl)
        · exact Or.inl hx
        · exact Or.inr ⟨rfl, h1⟩
      · rintro (hx | ⟨rfl, _⟩)
        · exact Or.inl hx
        · exact Or.inr rfl
  · rw [if_neg (by tauto)]
    constructor
    · exact Or.inl
    · rintro (hx | ⟨rfl, hmem⟩)
      · exact hx
      · exact absurd hmem h1

/-- What a delivery sequence does to the membership of the completed set:
exactly the delivered expected ids are added. -/
theorem mem_run_tool_results_completed (deliveries : List (String × Int))
    (tm : TurnMetadata) (x : String) :
    x ∈ (run_tool_results tm deliveries).1.completed_tool_results ↔
      x ∈ tm.completed_tool_results ∨
        (x ∈ deliveries.map Prod.fst ∧ x ∈ tm.tool_call_ids) := by
  induction deliveries generalizing tm with
  | nil => simp [run_tool_results]
  | cons d rest ih =>
    simp only [run_tool_results]
    rw [ih, mem_add_tool_result_completed, add_tool_result_tool_call_ids]
    constructor
    · rintro ((hx | ⟨rfl, hd⟩) | ⟨hr, hids⟩)
      · exact Or.inl hx
      · exact Or.inr ⟨by simp, hd⟩
      · exact Or.inr ⟨by simp [hr], hids⟩
    · rintro (hx | ⟨hmap, hids⟩)
      · exact Or.inl (Or.inl hx)
      · rcases List.mem_map.mp hmap with ⟨p, hp, rfl⟩
        rcases List.mem_cons.mp hp with rfl | hp
        · exact Or.inl (Or.inr ⟨rfl, hids⟩)
        · exact Or.inr ⟨List.mem_map.mpr ⟨p, hp, rfl⟩, hids⟩

/-- Over a delivery sequence started on an incomplete turn whose completed
set does not yet equal the expected set, the completion flag at the end is
set exactly when the final completed set equals the expected set. -/
theorem run_tool_results_complete_iff (deliveries : List (String × Int))
    (tm : TurnMetadata)
    (hflag : tm.is_complete = false)
    (hne : ¬ listSetEq tm.completed_tool_results tm.tool_call_ids = true) :
    ((run_tool_results tm deliveries).1.is_complete = true ↔
      listSetEq (run_tool_results tm deliveries).1.completed_tool_results
        tm.tool_call_ids = true) := by
  induction deliveries generalizing tm with
  | nil =>
    simp only [run_tool_results, hflag]
    constructor
    · intro h
      simp at h
    · intro h
      exact absurd h hne
  | cons d rest ih =>
    simp only [run_tool_results]
    by_cases hg : d.1 ∈ tm.tool_call_ids
    · by_cases hdone :
        listSetEq (add_tool_result tm d.1 d.2).1.completed_tool_results
          tm.tool_call_ids = true
      · have hflag2 : (add_tool_result tm d.1 d.2).1.is_complete = true := by
          rw [add_tool_result_is_complete_eq]
          simp [hg, hdone]
        have hfin := run_tool_results_monotone rest _ hflag2
        rw [hfin]
        rcases (listSetEq_iff _ _).mp hdone with ⟨hsub1, hsub2⟩
        have hset : listSetEq
            (run_tool_results (add_tool_result tm d.1 d.2).1 rest).1.completed_tool_results
            tm.tool_call_ids = true := by
          rw [listSetEq_iff]
          constructor
          · intro x hx
            rcases (mem_run_tool_results_completed rest _ x).mp hx with hx | ⟨_, hx⟩
            · exact hsub1 x hx
            · rwa [add_tool_result_tool_call_ids] at hx
          · intro x hx
            exact (mem_run_tool_results_completed rest _ x).mpr (Or.inl (hsub2 x hx))
        rw [hset]
      · have hsf : listSetEq (add_tool_result tm d.1 d.2).1.completed_tool_results
            tm.tool_call_ids = false := by
          cases h : listSetEq (add_tool_result tm d.1 d.2).1.completed_tool_results
            tm.tool_call_ids
          · rfl
          · exact absurd h hdone
        have hflag2 : (add_tool_result tm d.1 d.2).1.is_complete = false := by
          rw [add_tool_result_is_complete_eq, hflag, hsf]
          simp
        have hne2 : ¬ listSetEq (add_tool_result tm d.1 d.2).1.completed_tool_results
            (add_tool_result tm d.1 d.2).1.tool_call_ids = true := by
          rw [add_tool_result_tool_call_ids]
          exact hdone
        have := ih _ hflag2 hne2
        rwa [add_tool_result_tool_call_ids] at this
    · rw [add_tool_result_not_expected tm d.1 d.2 hg]
      exact ih tm hflag hne

/-- Claim C1 (amended).  Over any sequence of `add_tool_result` deliveries
on one turn: the expected id set is fixed; the completion flag is monotone
(never unset); re-delivering an id already in the completed set leaves the
completed set unchanged; each call returns true exactly when the delivered
id is expected and the completed set after the call equals the expected
set — so once the turn is complete, every further delivery of an expected
id returns true again, not only the call that first completed the turn;
and for a fresh incomplete turn with a non-empty expected set, over
deliveries drawn from that set, the turn ends complete exactly when every
expected id has been delivered. -/
theorem add_tool_result_completion_monotone_and_reported
    (tm : TurnMetadata) (tool_call_id : String) (now : Int)
    (deliveries : List (String × Int)) :
    ((run_tool_results tm deliveries).1.tool_call_ids = tm.tool_call_ids)
    ∧ (tm.is_complete = true → (run_tool_results tm deliveries).1.is_complete = true)
    ∧ (tool_call_id ∈ tm.completed_tool_results →
        (add_tool_result tm tool_call_id now).1.completed_tool_results =
          tm.completed_tool_results)
    ∧ ((add_tool_result tm tool_call_id now).2 = true ↔
        tool_call_id ∈ tm.tool_call_ids ∧
          listSetEq (add_tool_result tm tool_call_id now).1.completed_tool_results
            tm.tool_call_ids = true)
    ∧ (tm.completed_tool_results = [] → tm.is_complete = false →
        tm.tool_call_ids ≠ [] →
        (∀ d ∈ deliveries, d.1 ∈ tm.tool_call_ids) →
        ((run_tool_results tm deliveries).1.is_complete = true ↔
          ∀ x ∈ tm.tool_call_ids, x ∈ deliveries.map Prod.fst)) := by
  refine ⟨run_tool_results_tool_call_ids deliveries tm,
    run_tool_results_monotone deliveries tm, ?_, ?_, ?_⟩
  · intro h
    rw [add_tool_result_completed_eq, if_neg (by tauto)]
  · rw [add_tool_result_snd_eq]
    simp
  · intro hemp hflag hne hdel
    have hne0 : ¬ listSetEq tm.completed_tool_results tm.tool_call_ids = true := by
      rw [listSetEq_iff, hemp]
      rintro ⟨-, hall⟩
      rcases List.exists_mem_of_ne_nil _ hne with ⟨y, hy⟩
      exact absurd (hall y hy) (List.not_mem_nil y)
    rw [run_tool_results_complete_iff deliveries tm hflag hne0, listSetEq_iff]
    constructor
    · rintro ⟨-, hall⟩ x hx
      rcases (mem_run_tool_results_completed deliveries tm x).mp (hall x hx) with hx0 | ⟨hm, -⟩
      · rw [hemp] at hx0
        exact absurd hx0 (List.not_mem_nil x)
      · exact hm
    · intro hall
      constructor
      · intro x hx
        rcases (mem_run_tool_results_completed deliveries tm x).mp hx with hx0 | ⟨-, hm⟩
        · rw [hemp] at hx0
          exact absurd hx0 (List.not_mem_nil x)
        · exact hm
      · intro x hx
        exact (mem_run_tool_results_completed deliveries tm x).mpr
          (Or.inr ⟨hall x hx, hx⟩)

/-- The source's `for turn in turns: result.extend(turn)` is
concatenation of the accumulator with the flattening. -/
theorem foldl_append_eq_flatten (l : List (List Message)) (acc : List Message) :
    l.foldl (fun a t => a ++ t) acc = acc ++ l.flatten := by
  induction l generalizing acc with
  | nil => simp
  | cons t rest ih => simp [ih]

/-- Finalizing the extraction walk (appending the open turn when
non-empty) flattens to the state's messages. -/
theorem finalize_flatten_eq_stateMessages (st : List (List Message) × List Message) :
    (if !st.2.isEmpty then st.1 ++ [st.2] else st.1).flatten = stateMessages st := by
  by_cases h : st.2.isEmpty
  · have h2 : st.2 = [] := by simpa using h
    simp [stateMessages, h, h2]
  · simp [stateMessages, h]

/-- Walking messages into an open current turn keeps every message: the
walk only moves them between the current turn and the finished turns. -/
theorem extract_foldl_open_turn (ms : List Message) (turns : List (List Message))
    (cur : List Message) (hr : rolesValid ms) (hc : cur ≠ []) :
    stateMessages (ms.foldl extractStep (turns, cur)) = turns.flatten ++ cur ++ ms := by
  induction ms generalizing turns cur with
  | nil => simp [stateMessages]
  | cons m rest ih =>
    obtain ⟨c, cs, rfl⟩ : ∃ c cs, cur = c :: cs := by
      cases cur with
      | nil => exact absurd rfl hc
      | cons c cs => exact ⟨c, cs, rfl⟩
    have hr2 : rolesValid rest := fun x hx => hr x (List.mem_cons_of_mem m hx)
    rcases hr m (List.mem_cons_self m rest) with hu | ha | ht
    · have hstep : extractStep (turns, c :: cs) m = (turns ++ [c :: cs], [m]) := by
        simp [extractStep, hu]
      rw [List.foldl_cons, hstep, ih _ _ hr2 (by simp)]
      simp
    · have hstep : extractStep (turns, c :: cs) m = (turns, (c :: cs) ++ [m]) := by
        simp [extractStep, ha]
      rw [List.foldl_cons, hstep, ih _ _ hr2 (by simp)]
      simp
    · have hstep : extractStep (turns, c :: cs) m = (turns, (c :: cs) ++ [m]) := by
        simp [extractStep, ht]
      rw [List.foldl_cons, hstep, ih _ _ hr2 (by simp)]
      simp

/-- Walking messages with no open turn: the orphaned leading run of
non-`user` messages is dropped, everything from the first `user` message
on is kept. -/
theorem extract_foldl_closed_turn (ms : List Message) (turns : List (List Message))
    (hr : rolesValid ms) :
    stateMessages (ms.foldl extractStep (turns, [])) =
      turns.flatten ++ ms.dropWhile (fun m => m.role != "user") := by
  induction ms generalizing turns with
  | nil => simp [stateMessages]
  | cons m rest ih =>
    have hr2 : rolesValid rest := fun x hx => hr x (List.mem_cons_of_mem m hx)
    rcases hr m (List.mem_cons_self m rest) with hu | ha | ht
    · have hstep : extractStep (turns, []) m = (turns, [m]) := by
        simp [extractStep, hu]
      rw [List.foldl_cons, hstep, extract_foldl_open_turn rest turns [m] hr2 (by simp)]
      rw [List.dropWhile_cons]
      simp [hu]
    · have hstep : extractStep (turns, []) m = (turns, []) := by
        simp [extractStep, ha]
      rw [List.foldl_cons, hstep, ih _ hr2]
      rw [List.dropWhile_cons]
      simp [ha]
    · have hstep : extractStep (turns, []) m = (turns, []) := by
        simp [extractStep, ht]
      rw [List.foldl_cons, hstep, ih _ hr2]
      rw [List.dropWhile_cons]
      simp [ht]

/-- The turn grouping flattens back to the input minus the orphaned
leading run: grouping loses nothing else and keeps the original order. -/
theorem turnsOf_flatten (messages : List Message) (hr : rolesValid messages) :
    (turnsOf messages).flatten = messages.dropWhile (fun m => m.role != "user") := by
  have h1 : (turnsOf messages).flatten =
      stateMessages (messages.foldl extractStep ([], [])) :=
    finalize_flatten_eq_stateMessages _
  rw [h1, extract_foldl_closed_turn messages [] hr]
  simp

/-- One extraction step preserves well-formedness of the finished turns
and of the open turn. -/
theorem extractStep_wellFormed (turns : List (List Message)) (cur : List Message)
    (m : Message) (h1 : ∀ t ∈ turns, turnWellFormed t)
    (h2 : cur = [] ∨ turnWellFormed cur) :
    (∀ t ∈ (extractStep (turns, cur) m).1, turnWellFormed t) ∧
      ((extractStep (turns, cur) m).2 = [] ∨
        turnWellFormed (extractStep (turns, cur) m).2) := by
  by_cases hu : m.role = "user"
  · by_cases he : cur = []
    · subst he
      have hstep : extractStep (turns, []) m = (turns, [m]) := by
        simp [extractStep, hu]
      rw [hstep]
      exact ⟨h1, Or.inr ⟨m, [], rfl, hu, by simp⟩⟩
    · have hwf : turnWellFormed cur := h2.resolve_left he
      obtain ⟨c, cs, rfl⟩ : ∃ c cs, cur = c :: cs := by
        cases cur with
        | nil => exact absurd rfl he
        | cons c cs => exact ⟨c, cs, rfl⟩
      have hstep : extractStep (turns, c :: cs) m = (turns ++ [c :: cs], [m]) := by
        simp [extractStep, hu]
      rw [hstep]
      refine ⟨?_, Or.inr ⟨m, [], rfl, hu, by simp⟩⟩
      intro t ht
      rcases List.mem_append.mp ht with ht | ht
      · exact h1 t ht
      · rw [List.mem_singleton.mp ht]
        exact hwf
  · by_cases hat : m.role = "assistant" ∨ m.role = "tool"
    · by_cases he : cur = []
      · subst he
        have hstep : extractStep (turns, []) m = (turns, []) := by
          rcases hat with h | h <;> simp [extractStep, h]
        rw [hstep]
        exact ⟨h1, Or.inl rfl⟩
      · have hwf : turnWellFormed cur := h2.resolve_left he
        obtain ⟨c, cs, rfl⟩ : ∃ c cs, cur = c :: cs := by
          cases cur with
          | nil => exact absurd rfl he
          | cons c cs => exact ⟨c, cs, rfl⟩
        have hstep : extractStep (turns, c :: cs) m = (turns, (c :: cs) ++ [m]) := by
          rcases hat with h | h <;> simp [extractStep, h]
        rw [hstep]
        refine ⟨h1, Or.inr ?_⟩
        obtain ⟨u, rest, hcur, hurole, hrest⟩ := hwf
        refine ⟨u, rest ++ [m], by rw [hcur]; simp, hurole, ?_⟩
        intro x hx
        rcases List.mem_append.mp hx with hx | hx
        · exact hrest x hx
        · rw [List.mem_singleton.mp hx]
          exact hat
    · push_neg at hat
      have hstep : extractStep (turns, cur) m = (turns, cur) := by
        simp [extractStep, hu, hat.1, hat.2]
      rw [hstep]
      exact ⟨h1, h2⟩

/-- Every turn the grouping produces starts with a `user` message followed
by `assistant`/`tool` messages only. -/
theorem turnsOf_wellFormed (messages : List Message) :
    ∀ t ∈ turnsOf messages, turnWellFormed t := by
  suffices h : ∀ (ms : List Message) (turns : List (List Message)) (cur : List Message),
      (∀ t ∈ turns, turnWellFormed t) → (cur = [] ∨ turnWellFormed cur) →
      (∀ t ∈ (ms.foldl extractStep (turns, cur)).1, turnWellFormed t) ∧
        ((ms.foldl extractStep (turns, cur)).2 = [] ∨
          turnWellFormed (ms.foldl extractStep (turns, cur)).2) by
    intro t ht
    have h0 := h messages [] [] (by simp) (Or.inl rfl)
    have hturnsOf : turnsOf messages =
        (if !(messages.foldl extractStep ([], [])).2.isEmpty
         then (messages.foldl extractStep ([], [])).1 ++ [(messages.foldl extractStep ([], [])).2]
         else (messages.foldl extractStep ([], [])).1) := rfl
    rw [hturnsOf] at ht
    by_cases he : (messages.foldl extractStep ([], [])).2.isEmpty
    · rw [if_neg (by simp [he])] at ht
      exact h0.1 t ht
    · rw [if_pos (by simp [he])] at ht
      rcases List.mem_append.mp ht with ht | ht
      · exact h0.1 t ht
      · rw [List.mem_singleton.mp ht]
        refine h0.2.resolve_left ?_
        intro hnil
        rw [hnil] at he
        exact he rfl
  intro ms
  induction ms with
  | nil =>
    intro turns cur h1 h2
    exact ⟨h1, h2⟩
  | cons m rest ih =>
    intro turns cur h1 h2
    have hstep := extractStep_wellFormed turns cur m h1 h2
    exact ih (extractStep (turns, cur) m).1 (extractStep (turns, cur) m).2 hstep.1 hstep.2

/-- Claim C8.  Turn windowing: for `0 < k` on a validated message list the
result is exactly the flattening of the last `k` groups of `turnsOf`;
those groups flatten back to the input minus the orphaned leading run of
non-`user` messages (so the output is a contiguous tail of turns in the
original chronological order); and every group is a `user` message
followed by its `assistant`/`tool` messages. -/
theorem extract_turns_windowing_correct (messages : List Message) (k : Int)
    (hk : 0 < k) (hroles : rolesValid messages) :
    extract_turns_from_messages messages (some k) =
      ((turnsOf messages).drop ((turnsOf messages).length - k.toNat)).flatten
    ∧ (turnsOf messages).flatten = messages.dropWhile (fun m => m.role != "user")
    ∧ ∀ t ∈ turnsOf messages, turnWellFormed t := by
  refine ⟨?_, turnsOf_flatten messages hroles, turnsOf_wellFormed messages⟩
  by_cases he : messages.isEmpty
  · have h0 : messages = [] := by simpa using he
    subst h0
    simp [extract_turns_from_messages, turnsOf, stateMessages]
  · have h1 : extract_turns_from_messages messages (some k) =
        ((turnsOf messages).drop ((turnsOf messages).length - k.toNat)).foldl
          (fun acc t => acc ++ t) [] := by
      simp [extract_turns_from_messages, he, hk]
    rw [h1, foldl_append_eq_flatten]
    simp

/-- Claim C8, witness: the concrete 5-turn history with `k = 2` — the
windowed output is exactly the messages of the last 2 turns in order. -/
theorem extract_turns_windowing_witness :
    (0 : Int) < 2 ∧ rolesValid exampleFiveTurnHistory ∧
      (extract_turns_from_messages exampleFiveTurnHistory (some 2) =
          ((turnsOf exampleFiveTurnHistory).drop
            ((turnsOf exampleFiveTurnHistory).length - (2 : Int).toNat)).flatten
        ∧ (turnsOf exampleFiveTurnHistory).flatten =
            exampleFiveTurnHistory.dropWhile (fun m => m.role != "user")
        ∧ ∀ t ∈ turnsOf exampleFiveTurnHistory, turnWellFormed t)
    ∧ extract_turns_from_messages exampleFiveTurnHistory (some 2) =
        exampleTurn 4 ++ exampleTurn 5 := by
  have hr : rolesValid exampleFiveTurnHistory := by
    unfold rolesValid
    decide
  exact ⟨by decide, hr,
    extract_turns_windowing_correct exampleFiveTurnHistory 2 (by decide) hr, by decide⟩

/-- One extraction step introduces no message: everything in the new
state was in the old state or is the walked message. -/
theorem mem_stateMessages_extractStep (turns : List (List Message)) (cur : List Message)
    (m x : Message) (hx : x ∈ stateMessages (extractStep (turns, cur) m)) :
    x ∈ stateMessages (turns, cur) ∨ x = m := by
  by_cases hu : m.role = "user"
  · have hstep : extractStep (turns, cur) m =
        ((if !cur.isEmpty then turns ++ [cur] else turns), [m]) := by
      simp [extractStep, hu]
    rw [hstep] at hx
    simp only [stateMessages] at hx ⊢
    rcases List.mem_append.mp hx with h | h
    · left
      by_cases hc : cur.isEmpty
      · rw [if_neg (by simp [hc])] at h
        exact List.mem_append.mpr (Or.inl h)
      · rw [if_pos (by simpa using hc)] at h
        rw [List.flatten_append] at h
        rcases List.mem_append.mp h with h | h
        · exact List.mem_append.mpr (Or.inl h)
        · exact List.mem_append.mpr (Or.inr (by simpa using h))
    · exact Or.inr (by simpa using h)
  · by_cases hat : m.role = "assistant" ∨ m.role = "tool"
    · have hstep : extractStep (turns, cur) m =
          (turns, if !cur.isEmpty then cur ++ [m] else cur) := by
        rcases hat with h | h <;> simp [extractStep, hu, h]
      rw [hstep] at hx
      simp only [stateMessages] at hx ⊢
      rcases List.mem_append.mp hx with h | h
      · exact Or.inl (List.mem_append.mpr (Or.inl h))
      · by_cases hc : cur.isEmpty
        · rw [if_neg (by simp [hc])] at h
          exact Or.inl (List.mem_append.mpr (Or.inr h))
        · rw [if_pos (by simpa using hc)] at h
          rcases List.mem_append.mp h with h | h
          · exact Or.inl (List.mem_append.mpr (Or.inr h))
          · exact Or.inr (by simpa using h)
    · push_neg at hat
      have hstep : extractStep (turns, cur) m = (turns, cur) := by
        simp [extractStep, hu, hat.1, hat.2]
      rw [hstep] at hx
      exact Or.inl hx

/-- The extraction walk introduces no message. -/
theorem mem_foldl_extractStep (ms : List Message)
    (st : List (List Message) × List Message) (x : Message)
    (hx : x ∈ stateMessages (ms.foldl extractStep st)) :
    x ∈ stateMessages st ∨ x ∈ ms := by
  induction ms generalizing st with
  | nil => exact Or.inl hx
  | cons m rest ih =>
    rcases ih (extractStep st m) hx with h | h
    · rcases mem_stateMessages_extractStep st.1 st.2 m x h with h | h
      · exact Or.inl h
      · exact Or.inr (by simp [h])
    · exact Or.inr (List.mem_cons_of_mem m h)

/-- Every message of the grouped turns is a message of the input. -/
theorem mem_turnsOf_flatten (messages : List Message) (x : Message)
    (hx : x ∈ (turnsOf messages).flatten) : x ∈ messages := by
  have h1 : (turnsOf messages).flatten =
      stateMessages (messages.foldl extractStep ([], [])) :=
    finalize_flatten_eq_stateMessages _
  rw [h1] at hx
  rcases mem_foldl_extractStep messages ([], []) x hx with h | h
  · simp [stateMessages] at h
  · exact h

/-- Every message of the windowed output is a message of the input. -/
theorem mem_extract_turns (messages : List Message) (k : Option Int) (x : Message)
    (hx : x ∈ extract_turns_from_messages messages k) : x ∈ messages := by
  by_cases he : messages.isEmpty
  · simp [extract_turns_from_messages, he] at hx
  · apply mem_turnsOf_flatten messages x
    rcases k with _ | k
    · have h1 : extract_turns_from_messages messages none = (turnsOf messages).flatten := by
        simp [extract_turns_from_messages, he, foldl_append_eq_flatten]
      rwa [h1] at hx
    · by_cases hk : 0 < k
      · have h1 : extract_turns_from_messages messages (some k) =
            ((turnsOf messages).drop ((turnsOf messages).length - k.toNat)).flatten := by
          simp [extract_turns_from_messages, he, hk, foldl_append_eq_flatten]
        rw [h1] at hx
        rcases List.mem_flatten.mp hx with ⟨t, ht, hxt⟩
        exact List.mem_flatten.mpr ⟨t, List.mem_of_mem_drop ht, hxt⟩
      · have h1 : extract_turns_from_messages messages (some k) =
            (turnsOf messages).flatten := by
          simp [extract_turns_from_messages, he, hk, foldl_append_eq_flatten]
        rwa [h1] at hx

/-- The final limit slice of `get_chat_history` only selects from its
input. -/
theorem mem_ite_drop (c : Bool) (n : Nat) (xs : List Message) (x : Message)
    (hx : x ∈ (if c = true then xs.drop n else xs)) : x ∈ xs := by
  by_cases h : c = true
  · rw [if_pos h] at hx
    exact List.mem_of_mem_drop hx
  · rwa [if_neg h] at hx

/-- Claim C10.  With tool-call inclusion disabled, `get_chat_history`
returns no `role = "tool"` message and no assistant message carrying tool
calls — whatever windowing and limit are applied — and in that mode the
pipeline is exactly the stripping filter, not the pairing-validation
pass. -/
theorem get_chat_history_excludes_tool_messages (sorted_history : List Message)
    (k_turns : Option Int) (limit : Option Nat) :
    (∀ m ∈ get_chat_history sorted_history false k_turns limit,
        m.role ≠ "tool" ∧ m.tool_calls = [])
    ∧ get_chat_history sorted_history false none none =
        sorted_history.filter (fun m => m.role != "tool" && m.tool_calls.isEmpty) := by
  constructor
  · intro m hm
    by_cases he : sorted_history.isEmpty
    · simp [get_chat_history, he] at hm
    · simp only [get_chat_history] at hm
      rw [if_neg he] at hm
      have hm3 : m ∈ sorted_history.filter
          (fun m => m.role != "tool" && m.tool_calls.isEmpty) := by
        rcases limit with _ | l <;> rcases k_turns with _ | k <;> dsimp only at hm
        · exact hm
        · exact mem_extract_turns _ (some k) m hm
        · exact mem_ite_drop _ _ _ m hm
        · exact mem_extract_turns _ (some k) m (mem_ite_drop _ _ _ m hm)
      have hp := (List.mem_filter.mp hm3).2
      simp at hp
      exact ⟨hp.1, hp.2⟩
  · by_cases he : sorted_history.isEmpty
    · have h0 : sorted_history = [] := by simpa using he
      subst h0
      simp [get_chat_history]
    · simp [get_chat_history, he]

/-- Every message `_execute_tool_call` returns carries role `"tool"` and
the request's tool-call id, whichever way the attempt went. -/
theorem execute_tool_call_result_fields (tool_call_id function_name : String)
    (b : ToolBehavior) (m : ToolResultMessage)
    (h : execute_tool_call tool_call_id function_name b = AttemptResult.result m) :
    m.role = "tool" ∧ m.tool_call_id = tool_call_id := by
  cases b <;> simp only [execute_tool_call] at h <;> cases h <;> exact ⟨rfl, rfl⟩

/-- The retry loop, started with at least one attempt left, always returns
a `role = "tool"` message carrying the request's id, after between one and
the remaining number of attempts — no exception reaches the conversation
loop. -/
theorem retryLoop_returns_tool_message (tool_call_id function_name : String)
    (timeout_s retry_attempts : Nat) (behavior : Nat → ToolBehavior) :
    ∀ remaining attempt, 0 < remaining →
      ∃ m k, retryLoop tool_call_id function_name timeout_s retry_attempts behavior
          attempt remaining = some (m, k)
        ∧ m.role = "tool" ∧ m.tool_call_id = tool_call_id
        ∧ attempt < k ∧ k ≤ attempt + remaining := by
  intro remaining
  induction remaining with
  | zero =>
    intro attempt h
    exact absurd h (by simp)
  | succ r ih =>
    intro attempt _
    cases hb : execute_tool_call tool_call_id function_name (behavior attempt) with
    | result m =>
      have hf := execute_tool_call_result_fields _ _ _ _ hb
      refine ⟨m, attempt + 1, ?_, hf.1, hf.2, Nat.lt_succ_self attempt, by omega⟩
      simp only [retryLoop, hb]
    | timedOut =>
      by_cases hr : 0 < r
      · obtain ⟨m, k, hloop, h2, h3, h4, h5⟩ := ih (attempt + 1) hr
        refine ⟨m, k, ?_, h2, h3, by omega, by omega⟩
        simp only [retryLoop, hb]
        rw [if_pos hr]
        exact hloop
      · have hr0 : r = 0 := by omega
        subst hr0
        refine ⟨{ tool_call_id := tool_call_id, role := "tool", name := function_name,
                  content := "Tool call timed out after " ++ toString timeout_s ++ "s" },
          attempt + 1, ?_, rfl, rfl, Nat.lt_succ_self attempt, by omega⟩
        simp only [retryLoop, hb]
        rw [if_neg (by omega)]
    | raised e =>
      by_cases hr : 0 < r
      · obtain ⟨m, k, hloop, h2, h3, h4, h5⟩ := ih (attempt + 1) hr
        refine ⟨m, k, ?_, h2, h3, by omega, by omega⟩
        simp only [retryLoop, hb]
        rw [if_pos hr]
        exact hloop
      · have hr0 : r = 0 := by omega
        subst hr0
        refine ⟨{ tool_call_id := tool_call_id, role := "tool", name := function_name,
                  content := "Tool call failed after " ++ toString retry_attempts
                    ++ " attempts: " ++ e },
          attempt + 1, ?_, rfl, rfl, Nat.lt_succ_self attempt, by omega⟩
        simp only [retryLoop, hb]
        rw [if_neg (by omega)]

/-- With a tool call that times out on every attempt, the loop runs all
remaining attempts and returns the synthetic timeout message. -/
theorem retryLoop_all_hangs (tool_call_id function_name : String)
    (timeout_s retry_attempts : Nat) (behavior : Nat → ToolBehavior)
    (hb : ∀ i, behavior i = ToolBehavior.hangs) :
    ∀ remaining attempt, 0 < remaining →
      retryLoop tool_call_id function_name timeout_s retry_attempts behavior
          attempt remaining =
        some ({ tool_call_id := tool_call_id, role := "tool", name := function_name,
                content := "Tool call timed out after " ++ toString timeout_s ++ "s" },
              attempt + remaining) := by
  intro remaining
  induction remaining with
  | zero =>
    intro attempt h
    exact absurd h (by simp)
  | succ r ih =>
    intro attempt _
    have hstep : execute_tool_call tool_call_id function_name (behavior attempt) =
        AttemptResult.timedOut := by
      rw [hb attempt]
      rfl
    by_cases hr : 0 < r
    · have harith : attempt + 1 + r = attempt + (r + 1) := by omega
      simp only [retryLoop, hstep]
      rw [if_pos hr, ih (attempt + 1) hr, harith]
    · have hr0 : r = 0 := by omega
      subst hr0
      simp only [retryLoop, hstep]
      rfl

/-- Claim C3 (amended).  For every single tool call: the executor never
propagates an exception to the conversation loop — with at least one
allowed attempt it always returns a synthetic `role = "tool"` result
message carrying the request's id; a call that times out on every attempt
is retried the full bounded count (default 3) and then yields the
human-readable timeout message; but an exception raised during execution
is caught inside `_execute_tool_call` itself and converted to a
human-readable error message on the first attempt — it is not retried, so
timeouts and execution exceptions are not handled identically. -/
theorem execute_single_tool_call_synthetic_results
    (tool_call_id function_name : String) (timeout_s n : Nat)
    (behavior : Nat → ToolBehavior) (hn : 0 < n) :
    (∃ m k, execute_single_tool_call tool_call_id function_name timeout_s n behavior =
        some (m, k) ∧ m.role = "tool" ∧ m.tool_call_id = tool_call_id ∧ 0 < k ∧ k ≤ n)
    ∧ ((∀ i, behavior i = ToolBehavior.hangs) →
        execute_single_tool_call tool_call_id function_name timeout_s n behavior =
          some ({ tool_call_id := tool_call_id, role := "tool", name := function_name,
                  content := "Tool call timed out after " ++ toString timeout_s ++ "s" },
                n))
    ∧ (∀ e, behavior 0 = ToolBehavior.raises e →
        execute_single_tool_call tool_call_id function_name timeout_s n behavior =
          some ({ tool_call_id := tool_call_id, role := "tool", name := function_name,
                  content := execErrorContent function_name e }, 1)) := by
  refine ⟨?_, ?_, ?_⟩
  · obtain ⟨m, k, h1, h2, h3, h4, h5⟩ :=
      retryLoop_returns_tool_message tool_call_id function_name timeout_s n behavior n 0 hn
    exact ⟨m, k, h1, h2, h3, h4, by simpa using h5⟩
  · intro hb
    have h := retryLoop_all_hangs tool_call_id function_name timeout_s n behavior hb n 0 hn
    simpa using h
  · intro e hb
    obtain ⟨r, rfl⟩ : ∃ r, n = r + 1 := ⟨n - 1, by omega⟩
    have hstep : execute_tool_call tool_call_id function_name (behavior 0) =
        AttemptResult.result
          { tool_call_id := tool_call_id, role := "tool", name := function_name,
            content := execErrorContent function_name e } := by
      rw [hb]
      rfl
    simp only [execute_single_tool_call, retryLoop, hstep]

/-- Claim C3, witness: a tool that succeeds on the first attempt, with the
default retry budget of 3. -/
theorem execute_single_tool_call_synthetic_results_witness :
    0 < 3 ∧
      ((∃ m k, execute_single_tool_call "call_1" "faq_search" 30 3
            (fun _ => ToolBehavior.succeeds "ok") = some (m, k)
          ∧ m.role = "tool" ∧ m.tool_call_id = "call_1" ∧ 0 < k ∧ k ≤ 3)
        ∧ ((∀ i : Nat, ToolBehavior.succeeds "ok" = ToolBehavior.hangs) →
            execute_single_tool_call "call_1" "faq_search" 30 3
                (fun _ => ToolBehavior.succeeds "ok") =
              some ({ tool_call_id := "call_1", role := "tool", name := "faq_search",
                      content := "Tool call timed out after " ++ toString 30 ++ "s" }, 3))
        ∧ (∀ e, ToolBehavior.succeeds "ok" = ToolBehavior.raises e →
            execute_single_tool_call "call_1" "faq_search" 30 3
                (fun _ => ToolBehavior.succeeds "ok") =
              some ({ tool_call_id := "call_1", role := "tool", name := "faq_search",
                      content := execErrorContent "faq_search" e }, 1))) :=
  ⟨by decide, execute_single_tool_call_synthetic_results "call_1" "faq_search" 30 3
    (fun _ => ToolBehavior.succeeds "ok") (by decide)⟩

/-- Replacing the binding of `k2` in place finds the new value. -/
theorem jget_map_set (o : JObj) (k : String) (v : JVal) (h : jhasKey o k = true) :
    jget (o.map (fun p => if p.1 == k then (k, v) else p)) k = some v := by
  induction o with
  | nil => simp [jhasKey] at h
  | cons p rest ih =>
    by_cases hp : (p.1 == k) = true
    · simp [List.map_cons, hp, jget]
    · have h2 : jhasKey rest k = true := by
        simp only [jhasKey, List.any_cons, Bool.or_eq_true] at h
        rcases h with h | h
        · exact absurd h hp
        · exact h
      simp [List.map_cons, hp, jget]
      simpa using ih h2

/-- Looking up a key with no binding continues into the appended tail. -/
theorem jget_append_not_found (o o2 : JObj) (k : String) (h : jhasKey o k = false) :
    jget (o ++ o2) k = jget o2 k := by
  induction o with
  | nil => simp
  | cons p rest ih =>
    simp only [jhasKey, List.any_cons, Bool.or_eq_false_iff] at h
    simp [jget, h.1, ih (by simp [jhasKey, h.2])]

/-- Setting a key finds exactly the set value. -/
theorem jget_jset_same (o : JObj) (k : String) (v : JVal) :
    jget (jset o k v) k = some v := by
  by_cases h : jhasKey o k = true
  · rw [jset, if_pos h]
    exact jget_map_set o k v h
  · have hf : jhasKey o k = false := by
      cases h2 : jhasKey o k
      · rfl
      · exact absurd h2 h
    rw [jset, if_neg (by simp [hf])]
    rw [jget_append_not_found o [(k, v)] k hf]
    simp [jget]

/-- Replacing the binding of another key leaves a lookup unchanged. -/
theorem jget_map_set_other (o : JObj) (k k2 : String) (v : JVal) (hne : k2 ≠ k) :
    jget (o.map (fun p => if p.1 == k2 then (k2, v) else p)) k = jget o k := by
  induction o with
  | nil => simp
  | cons p rest ih =>
    by_cases hp : (p.1 == k2) = true
    · have hp1 : p.1 = k2 := by simpa using hp
      have hk : (k2 == k) = false := by simp [hne]
      have hk2 : (p.1 == k) = false := by simp [hp1, hne]
      simp [List.map_cons, hp, jget, hk, hk2]
      simpa using ih
    · by_cases hpk : p.1 = k
      · have hkk2 : ¬ (k = k2) := fun hh => hp (by simp [hpk, hh])
        simp [List.map_cons, hp, jget, hpk, hkk2]
      · simp [List.map_cons, hp, jget, hpk]
        simpa using ih

/-- Appending a binding for another key leaves a lookup unchanged. -/
theorem jget_append_other (o : JObj) (k k2 : String) (v : JVal) (hne : k2 ≠ k) :
    jget (o ++ [(k2, v)]) k = jget o k := by
  induction o with
  | nil => simp [jget, hne]
  | cons p rest ih => simp [jget, ih]

/-- Setting another key leaves a lookup unchanged. -/
theorem jget_jset_other (o : JObj) (k k2 : String) (v : JVal) (hne : k2 ≠ k) :
    jget (jset o k2 v) k = jget o k := by
  by_cases h : jhasKey o k2 = true
  · rw [jset, if_pos h]
    exact jget_map_set_other o k k2 v hne
  · rw [jset, if_neg (by simp [h])]
    exact jget_append_other o k k2 v hne

/-- A merge whose patch never binds `k` leaves the lookup of `k`
unchanged. -/
theorem jget_dictUpdate_unbound (patch : JObj) (o : JObj) (k : String)
    (hp : ∀ p ∈ patch, p.1 ≠ k) :
    jget (dictUpdate o patch) k = jget o k := by
  induction patch generalizing o with
  | nil => rfl
  | cons q rest ih =>
    have h1 : q.1 ≠ k := hp q (List.mem_cons_self q rest)
    have h2 : ∀ p ∈ rest, p.1 ≠ k := fun p hm => hp p (List.mem_cons_of_mem q hm)
    have hstep : dictUpdate o (q :: rest) = dictUpdate (jset o q.1 q.2) rest := rfl
    rw [hstep, ih (jset o q.1 q.2) h2, jget_jset_other o k q.1 q.2 h1]

/-- Claim C9 (amended).  With a state document already stored carrying an
integer version `v`, an `update_chat_state` whose patch does not bind
`"version"` performs exactly one write, storing version `v + 1`, strictly
greater than `v`.  (Strict monotonicity fails exactly where the
counterexample shows: the lazy-creation path writes version 1 twice, and a
patch binding `"version"` sets the counter arbitrarily.) -/
theorem chat_state_version_increments_without_version_patch
    (st patch : JObj) (chat_id : String) (now : Nat) (v : Int)
    (hv : jget st "version" = some (JVal.jint v))
    (hp : ∀ p ∈ patch, p.1 ≠ "version") :
    ∃ w, update_chat_state (some st) patch chat_id now = some [w]
      ∧ versionOf w = some (v + 1) ∧ v < v + 1 := by
  have hmerge : jget (jset (dictUpdate st patch) "updated_at" (JVal.jstr (isoTime now)))
      "version" = some (JVal.jint v) := by
    rw [jget_jset_other _ _ _ _ (by decide), jget_dictUpdate_unbound patch st _ hp, hv]
  have hset : set_chat_state
      (jset (dictUpdate st patch) "updated_at" (JVal.jstr (isoTime now))) now =
      some (jset (jset (jset (dictUpdate st patch) "updated_at"
          (JVal.jstr (isoTime now))) "last_updated" (JVal.jstr (isoTime now)))
        "version" (JVal.jint (v + 1))) := by
    rw [set_chat_state, hmerge]
  refine ⟨jset (jset (jset (dictUpdate st patch) "updated_at"
      (JVal.jstr (isoTime now))) "last_updated" (JVal.jstr (isoTime now)))
      "version" (JVal.jint (v + 1)), ?_, ?_, by omega⟩
  · show (match set_chat_state
        (jset (dictUpdate st patch) "updated_at" (JVal.jstr (isoTime now))) now with
      | some w => some (([] : List JObj) ++ [w])
      | none => none) = _
    rw [hset]
    rfl
  · rw [versionOf, jget_jset_same]

/-- Claim C9, witness: a stored document with version 3 and a patch that
does not touch the version key. -/
theorem chat_state_version_witness :
    jget [("version", JVal.jint 3)] "version" = some (JVal.jint 3)
    ∧ (∀ p ∈ [(("theme" : String), JVal.jstr "dark")], p.1 ≠ "version")
    ∧ ∃ w, update_chat_state (some [("version", JVal.jint 3)])
          [("theme", JVal.jstr "dark")] "chat" 7 = some [w]
        ∧ versionOf w = some (3 + 1) ∧ (3 : Int) < 3 + 1 :=
  ⟨rfl, by decide,
    chat_state_version_increments_without_version_patch [("version", JVal.jint 3)]
      [("theme", JVal.jstr "dark")] "chat" 7 3 rfl (by decide)⟩

end ActAgents
